import Mathlib

/-!
Verification of the core of `linkextractor.py` (single-domain web crawler
with month-based filtering).

The Python source is shallowly embedded here:
* strings are `String`, Python sets are duplicate-free `List`s built with
  `List.insert`, Python dicts with fixed keys are association lists;
* the HTTP collaborator (`requests.Session.get` + BeautifulSoup parsing)
  is an oracle `world : String → Option (List String)` giving, for each
  URL, either a fetch failure (`none`) or the list of `href` attribute
  values of the anchor elements of the fetched page;
* `urljoin` and the `netloc` projection of `urlparse` (standard-library
  collaborators) are parameters of the embedding;
* the crawl loop `get_all_domain_links` becomes a step function
  `crawl_step` iterated by a fuel-bounded runner `crawl_run` that also
  records the trace of externally visible events (fetch attempts and
  sleeps).
-/

namespace LinkExtractor

/-- Python's `s.lower()`. The Python original lowercases full Unicode;
the URLs and patterns handled here only need the ASCII mapping of
`Char.toLower`. -/
def strToLower (s : String) : String :=
  String.mk (s.data.map Char.toLower)

/-- Python's `s.strip()`: remove leading and trailing whitespace. -/
def strTrim (s : String) : String :=
  String.mk
    (((s.data.dropWhile Char.isWhitespace).reverse.dropWhile Char.isWhitespace).reverse)

/-- Python's `s.startswith(pat)`. -/
def strStartsWith (s pat : String) : Bool :=
  pat.data.isPrefixOf s.data

/-- `pat` occurs in `s` as a contiguous substring (Python's `pat in s`). -/
def strContains (s pat : String) : Bool :=
  s.toList.tails.any (fun t => pat.toList.isPrefixOf t)

/-- `s` ends with `suffix` (Python's `s.endswith(suffix)`). -/
def strEndsWith (s suffix : String) : Bool :=
  suffix.toList.isSuffixOf s.toList

/-- `EXCLUDED_EXTENSIONS` from the `LinkExtractor` class: file extensions
whose URLs are not visited. -/
def EXCLUDED_EXTENSIONS : List String :=
  [".pdf", ".jpg", ".jpeg", ".png", ".gif", ".zip",
   ".doc", ".docx", ".xls", ".xlsx", ".ppt", ".pptx",
   ".mp4", ".avi", ".mov", ".mp3", ".wav"]

/-- `TARGET_MONTHS` from the `LinkExtractor` class: each target month with
its matching token patterns, in the dict's insertion order. -/
def TARGET_MONTHS : List (String × List String) :=
  [("janvier", ["01", "1", "janvier", "january"]),
   ("février", ["02", "2", "février", "february"]),
   ("mars", ["03", "3", "mars", "march"]),
   ("novembre", ["11", "novembre", "november"]),
   ("décembre", ["12", "décembre", "december"])]

/-- `LinkExtractor._should_visit_link`: a link is visited unless the
lowercased URL ends with an excluded extension, or a `#` occurs in the part
of the URL before the first `?`. -/
def should_visit_link (url : String) : Bool :=
  if EXCLUDED_EXTENSIONS.any (fun ext => strEndsWith (strToLower url) ext) then
    false
  else if (url.toList.takeWhile (fun c => c ≠ '?')).contains '#' then
    false
  else
    true

/-- `isExcluded` of the specification: the negation of
`_should_visit_link`. -/
def isExcluded (url : String) : Bool :=
  !(should_visit_link url)

/-- The alternatives of the regex month group `(0?[1-3]|11|12)` used by
`_contains_target_month`, as explicit strings. -/
def monthCodes : List String :=
  ["01", "02", "03", "1", "2", "3", "11", "12"]

/-- The regex fragment `(0?[1-3]|11|12)` followed by the separator `sep`,
matched at the start of `cs`. -/
def monthCodeThenSep (sep : Char) (cs : List Char) : Bool :=
  monthCodes.any (fun m =>
    m.toList.isPrefixOf cs &&
    match cs.drop m.toList.length with
    | c :: _ => c == sep
    | [] => false)

/-- The regex fragment `(\d{4})` + `sep` + `(0?[1-3]|11|12)` + `sep`,
matched at the start of `cs`. -/
def dateCoreAt (sep : Char) (cs : List Char) : Bool :=
  match cs with
  | d1 :: d2 :: d3 :: d4 :: s :: rest =>
      d1.isDigit && d2.isDigit && d3.isDigit && d4.isDigit && s == sep &&
      monthCodeThenSep sep rest
  | _ => false

/-- Unanchored search (`re.search`) for one of the four `date_patterns` of
`_contains_target_month`: with `lead = true` the pattern has a leading `/`,
and `sep` is the separator (`/` or `-`) between year and month. -/
def datePatternSearch (lead : Bool) (sep : Char) (url : String) : Bool :=
  url.toList.tails.any (fun t =>
    if lead then
      match t with
      | c :: rest => c == '/' && dateCoreAt sep rest
      | [] => false
    else
      dateCoreAt sep t)

/-- `LinkExtractor._contains_target_month`: true when one of the four date
regexes matches the URL, or some token of some target month occurs in the
lowercased URL. -/
def contains_target_month (url : String) : Bool :=
  let url_lower := strToLower url
  if datePatternSearch true '/' url || datePatternSearch true '-' url ||
     datePatternSearch false '/' url || datePatternSearch false '-' url then
    true
  else if TARGET_MONTHS.any (fun mp => mp.2.any (fun pat => strContains url_lower pat)) then
    true
  else
    false

/-- `LinkExtractor.filter_links_by_months`: the list-comprehension filter
keeping the links that contain a target month. -/
def filter_links_by_months (links : List String) : List String :=
  links.filter (fun link => contains_target_month link)

/-- Increment the count stored under key `m` of an association list
(`stats[month_name] += 1`). -/
def bumpStat (st : List (String × Nat)) (m : String) : List (String × Nat) :=
  st.map (fun p => if p.1 == m then (p.1, p.2 + 1) else p)

/-- Some pattern of the month entry `mp` occurs in the lowercased link
(the exit condition of the inner `for pattern in patterns` loop of
`get_month_statistics`). -/
def monthHits (mp : String × List String) (link : String) : Bool :=
  mp.2.any (fun pat => strContains (strToLower link) pat)

/-- One iteration of the outer `for link in filtered_links` loop of
`get_month_statistics`: for each month whose pattern list has a member
occurring in the lowercased link, the month's count is incremented once
(the `break` leaves only the inner pattern loop). -/
def statsStepLink (stats : List (String × Nat)) (link : String) : List (String × Nat) :=
  TARGET_MONTHS.foldl
    (fun st mp => if monthHits mp link then bumpStat st mp.1 else st)
    stats

/-- `LinkExtractor.get_month_statistics`: per-month counts over a list of
links, starting from all-zero counts in `TARGET_MONTHS` order. -/
def get_month_statistics (filtered_links : List String) : List (String × Nat) :=
  filtered_links.foldl statsStepLink (TARGET_MONTHS.map (fun mp => (mp.1, 0)))

/-- The keep-condition of `_extract_links_from_page`:
`if href and not href.startswith(('javascript:', 'mailto:', 'tel:'))`. -/
def hrefOk (href : String) : Bool :=
  href ≠ "" &&
  !(strStartsWith href "javascript:" || strStartsWith href "mailto:" ||
    strStartsWith href "tel:")

/-- One iteration of the `for link in soup.find_all` loop of
`_extract_links_from_page`. -/
def extractStep (urljoin : String → String → String) (netloc : String → String)
    (domain : String) (current_url : String)
    (links : List String) (href0 : String) : List String :=
  let href := strTrim href0
  if hrefOk href then
    let absolute_url := urljoin current_url href
    if netloc absolute_url == domain then links.insert absolute_url
    else links
  else links

/-- `LinkExtractor._extract_links_from_page`. The parsed page is the list
of `href` attribute values of its anchor elements, in document order;
`urljoin` and `netloc` are the standard-library collaborators used through
`urljoin(current_url, href)` and `urlparse(absolute_url).netloc`. Each
href is stripped; empty values and `javascript:` / `mailto:` / `tel:`
values are skipped; the rest are resolved and kept when their host equals
`domain`. The result is the built-up set of absolute links. -/
def extract_links_from_page (urljoin : String → String → String)
    (netloc : String → String) (domain : String)
    (hrefs : List String) (current_url : String) : List String :=
  hrefs.foldl (extractStep urljoin netloc domain current_url) []

/-- The mutable locals of `get_all_domain_links`: `visited` and
`all_links` are Python sets (duplicate-free lists here), `to_visit` is the
FIFO frontier list. -/
structure CrawlState where
  visited : List String
  to_visit : List String
  all_links : List String
deriving Repr, DecidableEq

/-- Externally visible actions of one crawl iteration: a successful fetch
(with the links extracted from the fetched page), a failed fetch
(`requests.RequestException`), and a `time.sleep(self.delay)`. -/
inductive Event where
  | fetchSuccess (url : String) (links : List String) : Event
  | fetchFailure (url : String) : Event
  | sleep (delay : Nat) : Event
deriving Repr, DecidableEq

/-- The event is a fetch attempt (successful or failed). -/
def Event.isFetch : Event → Bool
  | Event.fetchSuccess _ _ => true
  | Event.fetchFailure _ => true
  | Event.sleep _ => false

/-- The event is a successful fetch of `u`. -/
def Event.isSuccessOf (u : String) : Event → Bool
  | Event.fetchSuccess v _ => v == u
  | _ => false

/-- Python's `set.update`: insert every element of `src` into `dst`
(`all_links.update(new_links)`). -/
def setUpdate (dst src : List String) : List String :=
  src.foldl (fun acc l => acc.insert l) dst

/-- The `for link in new_links` enqueue loop of `get_all_domain_links`:
append each extracted link to the frontier tail when it is neither
visited, nor already queued, nor filtered out by `_should_visit_link`. -/
def enqueueLinks (visited : List String) (new_links : List String)
    (tv : List String) : List String :=
  new_links.foldl
    (fun tv link =>
      if link ∉ visited ∧ link ∉ tv ∧ should_visit_link link = true then
        tv ++ [link]
      else tv)
    tv

/-- One iteration of the `while to_visit:` loop of `get_all_domain_links`.
`world u` is the composite collaborator `session.get` +
`BeautifulSoup`: `none` on a request exception, otherwise the href values
of the fetched page's anchors. Returns `none` when the frontier is empty
(loop exit), otherwise the next state and the events of the iteration. -/
def crawl_step (world : String → Option (List String))
    (urljoin : String → String → String) (netloc : String → String)
    (domain : String) (delay : Nat) (s : CrawlState) :
    Option (CrawlState × List Event) :=
  match s.to_visit with
  | [] => none
  | current_url :: rest =>
    if current_url ∈ s.visited then
      some ({ s with to_visit := rest }, [])
    else
      match world current_url with
      | some hrefs =>
        let new_links := extract_links_from_page urljoin netloc domain hrefs current_url
        let visited' := s.visited.insert current_url
        some (⟨visited', enqueueLinks visited' new_links rest,
               setUpdate s.all_links new_links⟩,
              [Event.fetchSuccess current_url new_links, Event.sleep delay])
      | none =>
        some ({ s with to_visit := rest }, [Event.fetchFailure current_url])

/-- Fuel-bounded iteration of `crawl_step`, collecting the event trace. -/
def crawl_run (world : String → Option (List String))
    (urljoin : String → String → String) (netloc : String → String)
    (domain : String) (delay : Nat) :
    Nat → CrawlState → CrawlState × List Event
  | 0, s => (s, [])
  | Nat.succ fuel, s =>
    match crawl_step world urljoin netloc domain delay s with
    | none => (s, [])
    | some (s', evs) =>
      let r := crawl_run world urljoin netloc domain delay fuel s'
      (r.1, evs ++ r.2)

/-- The initial crawl state of `get_all_domain_links`:
`visited = set()`, `to_visit = [self.base_url]`, `all_links = set()`. -/
def initState (base_url : String) : CrawlState :=
  ⟨[], [base_url], []⟩

/-- `LinkExtractor.get_all_domain_links` (fuel-bounded): run the crawl
loop from the initial state and return the accumulated `all_links`. -/
def get_all_domain_links (world : String → Option (List String))
    (urljoin : String → String → String) (netloc : String → String)
    (domain : String) (delay : Nat) (base_url : String) (fuel : Nat) :
    List String :=
  (crawl_run world urljoin netloc domain delay fuel (initState base_url)).1.all_links

/-- The event is a fetch attempt (successful or failed) of the URL `u`. -/
def Event.isFetchOf (u : String) : Event → Bool
  | Event.fetchSuccess v _ => v == u
  | Event.fetchFailure v => v == u
  | Event.sleep _ => false

/-- No two adjacent events of the trace are both fetch attempts: every
pair of successive fetches has an intervening event (a sleep). -/
def delaySeparated : List Event → Bool
  | e1 :: e2 :: rest => !(e1.isFetch && e2.isFetch) && delaySeparated (e2 :: rest)
  | _ => true

/-- Every successful fetch of the trace is immediately followed by a sleep
of `delay` seconds. -/
def sleepAfterSuccess (delay : Nat) : List Event → Bool
  | Event.fetchSuccess _ _ :: rest =>
    (match rest with
     | Event.sleep d :: _ => d == delay
     | _ => false) && sleepAfterSuccess delay rest
  | _ :: rest => sleepAfterSuccess delay rest
  | [] => true

/-- Well-formedness of the crawl state: the frontier holds no duplicates
and is disjoint from the visited set. -/
def WF (s : CrawlState) : Prop :=
  s.to_visit.Nodup ∧ ∀ u ∈ s.visited, u ∉ s.to_visit

/-- Drop a URL's `scheme:` (and a following `//` if present). -/
def dropScheme : List Char → List Char
  | [] => []
  | c :: rest =>
    if c = ':' then
      match rest with
      | '/' :: '/' :: r => r
      | _ => rest
    else dropScheme rest

/-- The path component of an absolute URL, as the specification's
`isExcluded` contract reads it (`urlparse(url).path` for a
`scheme://host/path?query#fragment` URL): after scheme and authority, the
segment from the first `/` up to the first `?` or `#`. -/
def spec_path_of (url : String) : String :=
  let rest := (dropScheme url.toList).dropWhile
    (fun c => c ≠ '/' && c ≠ '?' && c ≠ '#')
  match rest with
  | '/' :: _ => ⟨rest.takeWhile (fun c => c ≠ '?' && c ≠ '#')⟩
  | _ => ""

/-- The specification's wording of `isExcluded`, for comparison with the
code's `_should_visit_link`: the URL's **path component** ends with an
excluded extension (case-insensitively), or the URL contains a `#` before
its query string. -/
def spec_isExcluded (url : String) : Bool :=
  EXCLUDED_EXTENSIONS.any (fun ext => strEndsWith (strToLower (spec_path_of url)) ext) ||
  (url.toList.takeWhile (fun c => c ≠ '?')).contains '#'

/-- A resolver collaborator for concrete runs: every href is already
absolute, so resolution returns it unchanged. -/
def absResolve (_current_url href : String) : String := href

/-- A host-projection collaborator for concrete runs: every URL is mapped
to the host `"d"`. -/
def constHost (_url : String) : String := "d"

/-- Concrete site for the delay counterexample: the base page links to two
pages, one of which fails to fetch while the other fetches fine. -/
def failWorld (u : String) : Option (List String) :=
  if u = "http://a" then some ["http://b", "http://c"]
  else if u = "http://b" then some []
  else none

/-- Concrete site for the discovered-but-excluded example: the base page
links to a `.pdf` asset only. -/
def pdfWorld (u : String) : Option (List String) :=
  if u = "http://a" then some ["http://x.pdf"] else none

/-! ## Theorems -/

theorem statsStepLink_closed (link : String) (a b c d e : Nat) :
    statsStepLink
      [("janvier", a), ("février", b), ("mars", c), ("novembre", d), ("décembre", e)]
      link =
    [("janvier",
        if monthHits ("janvier", ["01", "1", "janvier", "january"]) link then a + 1 else a),
     ("février",
        if monthHits ("février", ["02", "2", "février", "february"]) link then b + 1 else b),
     ("mars",
        if monthHits ("mars", ["03", "3", "mars", "march"]) link then c + 1 else c),
     ("novembre",
        if monthHits ("novembre", ["11", "novembre", "november"]) link then d + 1 else d),
     ("décembre",
        if monthHits ("décembre", ["12", "décembre", "december"]) link then e + 1 else e)] := by
  cases h1 : monthHits ("janvier", ["01", "1", "janvier", "january"]) link <;>
  cases h2 : monthHits ("février", ["02", "2", "février", "february"]) link <;>
  cases h3 : monthHits ("mars", ["03", "3", "mars", "march"]) link <;>
  cases h4 : monthHits ("novembre", ["11", "novembre", "november"]) link <;>
  cases h5 : monthHits ("décembre", ["12", "décembre", "december"]) link <;>
  simp [statsStepLink, TARGET_MONTHS, bumpStat, h1, h2, h3, h4, h5]

theorem stats_foldl_closed (links : List String) : ∀ a b c d e : Nat,
    links.foldl statsStepLink
      [("janvier", a), ("février", b), ("mars", c), ("novembre", d), ("décembre", e)] =
    [("janvier",
        a + links.countP (monthHits ("janvier", ["01", "1", "janvier", "january"]))),
     ("février",
        b + links.countP (monthHits ("février", ["02", "2", "février", "february"]))),
     ("mars",
        c + links.countP (monthHits ("mars", ["03", "3", "mars", "march"]))),
     ("novembre",
        d + links.countP (monthHits ("novembre", ["11", "novembre", "november"]))),
     ("décembre",
        e + links.countP (monthHits ("décembre", ["12", "décembre", "december"])))] := by
  induction links with
  | nil => intro a b c d e; simp
  | cons l ls ih =>
    intro a b c d e
    rw [List.foldl_cons, statsStepLink_closed, ih]
    cases h1 : monthHits ("janvier", ["01", "1", "janvier", "january"]) l <;>
    cases h2 : monthHits ("février", ["02", "2", "février", "february"]) l <;>
    cases h3 : monthHits ("mars", ["03", "3", "mars", "march"]) l <;>
    cases h4 : monthHits ("novembre", ["11", "novembre", "november"]) l <;>
    cases h5 : monthHits ("décembre", ["12", "décembre", "december"]) l <;>
    simp [List.countP_cons, h1, h2, h3, h4, h5] <;>
    omega

/-- **C1** (corrected): `get_month_statistics` does **not** stop at the
first matching month — the `break` only exits the inner pattern loop — so
on `["site.com/2024-01-a", "site.com/2024-12-b"]` it does not return
janvier = 1, décembre = 1, others = 0 (the substring `"02"` of `"2024"`
makes both links hit février, and `"1"` makes the second link hit janvier
as well). -/
theorem get_month_statistics_not_first_month_only :
    get_month_statistics ["site.com/2024-01-a", "site.com/2024-12-b"] ≠
      [("janvier", 1), ("février", 0), ("mars", 0), ("novembre", 0), ("décembre", 1)] := by
  decide

/-- **C1** (amended): for every input list, each URL increments the count
of **every** month some of whose tokens occurs in the lowercased URL (once
per month, by the inner-loop `break`), so each month's count is the number
of input URLs matching it; on `["site.com/2024-01-a", "site.com/2024-12-b"]`
this yields janvier = 2, février = 2, mars = 0, novembre = 0, décembre = 1. -/
theorem get_month_statistics_spec :
    (∀ links : List String,
      get_month_statistics links =
        TARGET_MONTHS.map (fun mp => (mp.1, links.countP (monthHits mp)))) ∧
    get_month_statistics ["site.com/2024-01-a", "site.com/2024-12-b"] =
      [("janvier", 2), ("février", 2), ("mars", 0), ("novembre", 0), ("décembre", 1)] := by
  constructor
  · intro links
    have h := stats_foldl_closed links 0 0 0 0 0
    simp only [Nat.zero_add] at h
    simpa [get_month_statistics, TARGET_MONTHS] using h
  · decide

/-- **C2** (counterexample): `_contains_target_month` returns **true**,
not false, on `"https://site.com/2024/07/news"`. -/
theorem contains_target_month_july_true :
    contains_target_month "https://site.com/2024/07/news" = true := by
  decide

/-- **C2** (amended): `_contains_target_month` is true on
`"https://site.com/2024/03/news"` (structured date pattern), true on
`"https://site.com/blog/novembre-news"` (month-name token), and **also
true** on `"https://site.com/2024/07/news"`: no date regex matches (July
is outside the numeric set), but the token `"02"` of février occurs in
`"2024"` as a substring of the lowercased URL. -/
theorem contains_target_month_examples :
    contains_target_month "https://site.com/2024/03/news" = true ∧
    contains_target_month "https://site.com/blog/novembre-news" = true ∧
    contains_target_month "https://site.com/2024/07/news" = true ∧
    (datePatternSearch true '/' "https://site.com/2024/07/news" = false ∧
     datePatternSearch true '-' "https://site.com/2024/07/news" = false ∧
     datePatternSearch false '/' "https://site.com/2024/07/news" = false ∧
     datePatternSearch false '-' "https://site.com/2024/07/news" = false) ∧
    strContains (strToLower "https://site.com/2024/07/news") "02" = true := by
  decide

/-- **C3** (counterexample): `_should_visit_link` tests the **whole URL**
with `endswith`, not the URL's path component: for
`"http://s.com/a?f=x.pdf"` the path is `"/a"` (no excluded extension, no
fragment), yet the code excludes the URL because the full URL string ends
in `".pdf"`. -/
theorem isExcluded_query_pdf_counterexample :
    isExcluded "http://s.com/a?f=x.pdf" = true ∧
    spec_isExcluded "http://s.com/a?f=x.pdf" = false ∧
    spec_path_of "http://s.com/a?f=x.pdf" = "/a" := by
  decide

/-- **C3** (amended): `isExcluded url` is true iff the **entire lowercased
URL** ends with one of the fixed extensions, or the URL contains a `#`
before its first `?`; it is true for `.../report.PDF` and false for
`.../2024/03/index.html`. -/
theorem isExcluded_characterization (url : String) :
    (isExcluded url = true ↔
      (∃ ext ∈ EXCLUDED_EXTENSIONS, strEndsWith (strToLower url) ext = true) ∨
      '#' ∈ url.toList.takeWhile (fun c => c ≠ '?')) ∧
    isExcluded "https://site.com/files/report.PDF" = true ∧
    isExcluded "https://site.com/2024/03/index.html" = false := by
  refine ⟨?_, by decide, by decide⟩
  simp only [isExcluded, should_visit_link, Bool.not_eq_true']
  split
  · next h =>
    simp only [List.any_eq_true] at h
    simp [h]
  · next h =>
    simp only [List.any_eq_true] at h
    split
    · next h2 =>
      simp only [List.contains, List.elem_iff, ne_eq, decide_not, String.toList] at h2
      simp [h2]
    · next h2 =>
      simp only [List.contains, List.elem_iff, ne_eq, decide_not, String.toList] at h2
      simp [h, h2]

/-- **C8**: `filter_links_by_months` is a pure, order-preserving filter:
its output is a subsequence of its input, contains exactly the input
elements for which `_contains_target_month` holds, and applying the filter
to its own output returns that output unchanged. -/
theorem filter_links_by_months_spec (links : List String) :
    (filter_links_by_months links).Sublist links ∧
    (∀ u, u ∈ filter_links_by_months links ↔
      u ∈ links ∧ contains_target_month u = true) ∧
    filter_links_by_months (filter_links_by_months links) =
      filter_links_by_months links := by
  refine ⟨List.filter_sublist links, fun u => List.mem_filter, ?_⟩
  simp [filter_links_by_months, List.filter_filter]

theorem hrefOk_iff (x : String) :
    hrefOk x = true ↔
      x ≠ "" ∧ strStartsWith x "javascript:" = false ∧
      strStartsWith x "mailto:" = false ∧ strStartsWith x "tel:" = false := by
  simp [hrefOk, not_or, and_assoc]

theorem extract_foldl_mem (uj : String → String → String) (nl : String → String)
    (dom cur : String) (hrefs : List String) : ∀ (acc : List String) (u : String),
    u ∈ hrefs.foldl (extractStep uj nl dom cur) acc ↔
      u ∈ acc ∨ ∃ h ∈ hrefs, hrefOk (strTrim h) = true ∧
        u = uj cur (strTrim h) ∧ nl u = dom := by
  induction hrefs with
  | nil => intro acc u; simp
  | cons h t ih =>
    intro acc u
    rw [List.foldl_cons, ih]
    constructor
    · rintro (hm | hex)
      · simp only [extractStep] at hm
        split at hm
        · next hc =>
          split at hm
          · next hd =>
            rcases List.mem_insert_iff.mp hm with hu | hu
            · refine Or.inr ⟨h, List.mem_cons_self h t, hc, hu, ?_⟩
              rw [hu]
              exact eq_of_beq hd
            · exact Or.inl hu
          · exact Or.inl hm
        · exact Or.inl hm
      · rcases hex with ⟨h', hmem, hok, hu, hnl⟩
        exact Or.inr ⟨h', List.mem_cons_of_mem h hmem, hok, hu, hnl⟩
    · rintro (hacc | hex)
      · refine Or.inl ?_
        simp only [extractStep]
        split
        · split
          · exact List.mem_insert_of_mem hacc
          · exact hacc
        · exact hacc
      · rcases hex with ⟨h', hmem, hok, hu, hnl⟩
        rcases List.mem_cons.mp hmem with rfl | hmem'
        · refine Or.inl ?_
          simp only [extractStep]
          rw [if_pos hok, if_pos (by rw [← hu]; exact beq_iff_eq.mpr hnl)]
          rw [hu]
          exact List.mem_insert_self _ _
        · exact Or.inr ⟨h', hmem', hok, hu, hnl⟩

theorem extract_foldl_nodup (uj : String → String → String) (nl : String → String)
    (dom cur : String) (hrefs : List String) : ∀ acc : List String,
    acc.Nodup → (hrefs.foldl (extractStep uj nl dom cur) acc).Nodup := by
  induction hrefs with
  | nil => intro acc hacc; simpa using hacc
  | cons h t ih =>
    intro acc hacc
    rw [List.foldl_cons]
    apply ih
    simp only [extractStep]
    split
    · split
      · exact hacc.insert
      · exact hacc
    · exact hacc

/-- **C9**: `_extract_links_from_page` returns the duplicate-free set of
absolute URLs obtained by taking every anchor href of the page, stripping
it, skipping empty and `javascript:`/`mailto:`/`tel:` values, resolving
the rest against the source URL, and keeping exactly those whose host
equals the configured domain. It is a pure function of the page and
source URL (no crawl state is read or written). -/
theorem extract_links_from_page_spec (urljoin : String → String → String)
    (netloc : String → String) (domain : String)
    (hrefs : List String) (current_url : String) :
    (extract_links_from_page urljoin netloc domain hrefs current_url).Nodup ∧
    (∀ u, u ∈ extract_links_from_page urljoin netloc domain hrefs current_url ↔
      ∃ h ∈ hrefs,
        (strTrim h ≠ "" ∧
         strStartsWith (strTrim h) "javascript:" = false ∧
         strStartsWith (strTrim h) "mailto:" = false ∧
         strStartsWith (strTrim h) "tel:" = false) ∧
        u = urljoin current_url (strTrim h) ∧
        netloc u = domain) := by
  constructor
  · exact extract_foldl_nodup urljoin netloc domain current_url hrefs [] List.nodup_nil
  · intro u
    rw [extract_links_from_page, extract_foldl_mem]
    simp only [List.not_mem_nil, false_or, hrefOk_iff, and_assoc]

theorem crawl_step_cases (world : String → Option (List String))
    (uj : String → String → String) (nl : String → String) (dom : String)
    (delay : Nat) (s s' : CrawlState) (evs : List Event)
    (h : crawl_step world uj nl dom delay s = some (s', evs)) :
    ∃ cur rest, s.to_visit = cur :: rest ∧
      ((cur ∈ s.visited ∧ s' = { s with to_visit := rest } ∧ evs = []) ∨
       (cur ∉ s.visited ∧ ∃ hrefs, world cur = some hrefs ∧
          s' = ⟨s.visited.insert cur,
                enqueueLinks (s.visited.insert cur)
                  (extract_links_from_page uj nl dom hrefs cur) rest,
                setUpdate s.all_links (extract_links_from_page uj nl dom hrefs cur)⟩ ∧
          evs = [Event.fetchSuccess cur (extract_links_from_page uj nl dom hrefs cur),
                 Event.sleep delay]) ∨
       (cur ∉ s.visited ∧ world cur = none ∧ s' = { s with to_visit := rest } ∧
          evs = [Event.fetchFailure cur])) := by
  unfold crawl_step at h
  rcases hv : s.to_visit with _ | ⟨cur, rest⟩ <;> rw [hv] at h
  · exact absurd h (by simp)
  · simp only [Option.some.injEq] at h
    refine ⟨cur, rest, rfl, ?_⟩
    by_cases hmem : cur ∈ s.visited
    · rw [if_pos hmem] at h
      simp only [Option.some.injEq, Prod.mk.injEq] at h
      exact Or.inl ⟨hmem, h.1.symm, h.2.symm⟩
    · rw [if_neg hmem] at h
      rcases hw : world cur with _ | hrefs <;> rw [hw] at h <;>
        simp only [Option.some.injEq, Prod.mk.injEq] at h
      · exact Or.inr (Or.inr ⟨hmem, rfl, h.1.symm, h.2.symm⟩)
      · exact Or.inr (Or.inl ⟨hmem, hrefs, rfl, h.1.symm, h.2.symm⟩)

theorem enqueueLinks_mem (visited : List String) (new_links : List String) :
    ∀ tv u, u ∈ enqueueLinks visited new_links tv →
      u ∈ tv ∨ (should_visit_link u = true ∧ u ∉ visited) := by
  induction new_links with
  | nil => intro tv u h; exact Or.inl (by simpa [enqueueLinks] using h)
  | cons l ls ih =>
    intro tv u h
    have hcons : enqueueLinks visited (l :: ls) tv =
        enqueueLinks visited ls
          (if l ∉ visited ∧ l ∉ tv ∧ should_visit_link l = true then tv ++ [l] else tv) :=
      rfl
    rw [hcons] at h
    by_cases hc : l ∉ visited ∧ l ∉ tv ∧ should_visit_link l = true
    · rw [if_pos hc] at h
      rcases ih _ u h with hm | hgood
      · rcases List.mem_append.mp hm with hm' | hm'
        · exact Or.inl hm'
        · have : u = l := by simpa using hm'
          subst this
          exact Or.inr ⟨hc.2.2, hc.1⟩
      · exact Or.inr hgood
    · rw [if_neg hc] at h
      exact ih _ u h

theorem enqueueLinks_nodup_disjoint (visited : List String) (new_links : List String) :
    ∀ tv, tv.Nodup → (∀ v ∈ visited, v ∉ tv) →
      (enqueueLinks visited new_links tv).Nodup ∧
      (∀ v ∈ visited, v ∉ enqueueLinks visited new_links tv) := by
  induction new_links with
  | nil =>
    intro tv h1 h2
    exact ⟨by simpa [enqueueLinks] using h1, by simpa [enqueueLinks] using h2⟩
  | cons l ls ih =>
    intro tv h1 h2
    have hcons : enqueueLinks visited (l :: ls) tv =
        enqueueLinks visited ls
          (if l ∉ visited ∧ l ∉ tv ∧ should_visit_link l = true then tv ++ [l] else tv) :=
      rfl
    rw [hcons]
    by_cases hc : l ∉ visited ∧ l ∉ tv ∧ should_visit_link l = true
    · rw [if_pos hc]
      apply ih
      · simp [List.nodup_append, h1, List.disjoint_singleton, hc.2.1]
      · intro v hv hvm
        rcases List.mem_append.mp hvm with hm | hm
        · exact h2 v hv hm
        · have : v = l := by simpa using hm
          subst this
          exact hc.1 hv
    · rw [if_neg hc]
      exact ih tv h1 h2

theorem crawl_step_WF (world : String → Option (List String))
    (uj : String → String → String) (nl : String → String) (dom : String)
    (delay : Nat) (s s' : CrawlState) (evs : List Event)
    (h : crawl_step world uj nl dom delay s = some (s', evs)) (hwf : WF s) :
    WF s' := by
  obtain ⟨cur, rest, hv, hcase⟩ := crawl_step_cases world uj nl dom delay s s' evs h
  have hnodup : (cur :: rest).Nodup := hv ▸ hwf.1
  have hrest : rest.Nodup := (List.nodup_cons.mp hnodup).2
  have hdisj : ∀ v ∈ s.visited, v ∉ rest := fun v hvm hin =>
    hwf.2 v hvm (hv ▸ List.mem_cons_of_mem _ hin)
  rcases hcase with ⟨hmem, rfl, -⟩ | ⟨hmem, hrefs, hw, rfl, -⟩ | ⟨hmem, hw, rfl, -⟩
  · exact ⟨hrest, hdisj⟩
  · have hdisj' : ∀ v ∈ s.visited.insert cur, v ∉ rest := by
      intro v hvm
      rcases List.mem_insert_iff.mp hvm with rfl | hvm'
      · exact (List.nodup_cons.mp hnodup).1
      · exact hdisj v hvm'
    obtain ⟨hn, hd⟩ := enqueueLinks_nodup_disjoint (s.visited.insert cur)
      (extract_links_from_page uj nl dom hrefs cur) rest hrest hdisj'
    exact ⟨hn, hd⟩
  · exact ⟨hrest, hdisj⟩

theorem crawl_run_no_refetch (world : String → Option (List String))
    (uj : String → String → String) (nl : String → String) (dom : String)
    (delay : Nat) :
    ∀ (fuel : Nat) (s : CrawlState) (u : String), u ∈ s.visited →
      ((crawl_run world uj nl dom delay fuel s).2.countP (Event.isSuccessOf u)) = 0 := by
  intro fuel
  induction fuel with
  | zero => intro s u _; simp [crawl_run]
  | succ fuel ih =>
    intro s u hu
    rcases hstep : crawl_step world uj nl dom delay s with _ | ⟨s', evs⟩
    · simp [crawl_run, hstep]
    · obtain ⟨cur, rest, hv, hcase⟩ :=
        crawl_step_cases world uj nl dom delay s s' evs hstep
      simp only [crawl_run, hstep, List.countP_append]
      rcases hcase with ⟨hmem, rfl, rfl⟩ | ⟨hmem, hrefs, hw, rfl, rfl⟩ | ⟨hmem, hw, rfl, rfl⟩
      · simpa using ih { s with to_visit := rest } u hu
      · have hne : cur ≠ u := fun he => hmem (he ▸ hu)
        simpa [List.countP_cons, Event.isSuccessOf, hne] using
          ih ⟨s.visited.insert cur,
            enqueueLinks (s.visited.insert cur)
              (extract_links_from_page uj nl dom hrefs cur) rest,
            setUpdate s.all_links (extract_links_from_page uj nl dom hrefs cur)⟩
            u (List.mem_insert_of_mem hu)
      · simpa [List.countP_cons, Event.isSuccessOf] using
          ih { s with to_visit := rest } u hu

theorem crawl_run_success_once (world : String → Option (List String))
    (uj : String → String → String) (nl : String → String) (dom : String)
    (delay : Nat) :
    ∀ (fuel : Nat) (s : CrawlState) (u : String),
      ((crawl_run world uj nl dom delay fuel s).2.countP (Event.isSuccessOf u)) ≤ 1 := by
  intro fuel
  induction fuel with
  | zero => intro s u; simp [crawl_run]
  | succ fuel ih =>
    intro s u
    rcases hstep : crawl_step world uj nl dom delay s with _ | ⟨s', evs⟩
    · simp [crawl_run, hstep]
    · obtain ⟨cur, rest, hv, hcase⟩ :=
        crawl_step_cases world uj nl dom delay s s' evs hstep
      simp only [crawl_run, hstep, List.countP_append]
      rcases hcase with ⟨hmem, rfl, rfl⟩ | ⟨hmem, hrefs, hw, rfl, rfl⟩ | ⟨hmem, hw, rfl, rfl⟩
      · simpa using ih { s with to_visit := rest } u
      · by_cases hcu : cur = u
        · subst hcu
          have h0 := crawl_run_no_refetch world uj nl dom delay fuel
            ⟨s.visited.insert cur,
             enqueueLinks (s.visited.insert cur)
               (extract_links_from_page uj nl dom hrefs cur) rest,
             setUpdate s.all_links (extract_links_from_page uj nl dom hrefs cur)⟩
            cur (List.mem_insert_self cur s.visited)
          simp [List.countP_cons, Event.isSuccessOf, h0]
        · simp [List.countP_cons, Event.isSuccessOf, hcu]
          exact ih _ u
      · simpa [List.countP_cons, Event.isSuccessOf] using
          ih { s with to_visit := rest } u

/-- **C5**: in every run of `get_all_domain_links`, the frontier `to_visit`
never holds duplicates and stays disjoint from `visited` across every
step, and no URL is successfully fetched (2xx response, processed) more
than once in the whole run. -/
theorem crawl_invariants (world : String → Option (List String))
    (uj : String → String → String) (nl : String → String) (dom : String)
    (delay fuel : Nat) (s : CrawlState)
    (hwf : s.to_visit.Nodup ∧ ∀ u ∈ s.visited, u ∉ s.to_visit) :
    (∀ s' evs, crawl_step world uj nl dom delay s = some (s', evs) →
      s'.to_visit.Nodup ∧ ∀ u ∈ s'.visited, u ∉ s'.to_visit) ∧
    (∀ u, ((crawl_run world uj nl dom delay fuel s).2.countP (Event.isSuccessOf u)) ≤ 1) :=
  ⟨fun s' evs h => crawl_step_WF world uj nl dom delay s s' evs h hwf,
   fun u => crawl_run_success_once world uj nl dom delay fuel s u⟩

/-- **C5** (witness). -/
theorem crawl_invariants_witness :
    ((initState "http://a").to_visit.Nodup ∧
      ∀ u ∈ (initState "http://a").visited, u ∉ (initState "http://a").to_visit) ∧
    ((crawl_run failWorld absResolve constHost "d" 1 5
        (initState "http://a")).2.countP (Event.isSuccessOf "http://a")) ≤ 1 := by
  have hwf : (initState "http://a").to_visit.Nodup ∧
      ∀ u ∈ (initState "http://a").visited, u ∉ (initState "http://a").to_visit :=
    ⟨by simp [initState], by simp [initState]⟩
  exact ⟨hwf,
    (crawl_invariants failWorld absResolve constHost "d" 1 5 (initState "http://a") hwf).2
      "http://a"⟩

theorem crawl_run_excluded_not_fetched (world : String → Option (List String))
    (uj : String → String → String) (nl : String → String) (dom : String)
    (delay : Nat) :
    ∀ (fuel : Nat) (s : CrawlState) (u : String),
      should_visit_link u = false → u ∉ s.to_visit →
      ((crawl_run world uj nl dom delay fuel s).2.all
        (fun e => !(e.isFetchOf u))) = true := by
  intro fuel
  induction fuel with
  | zero => intro s u _ _; simp [crawl_run]
  | succ fuel ih =>
    intro s u hex hnin
    rcases hstep : crawl_step world uj nl dom delay s with _ | ⟨s', evs⟩
    · simp [crawl_run, hstep]
    · obtain ⟨cur, rest, hv, hcase⟩ :=
        crawl_step_cases world uj nl dom delay s s' evs hstep
      have hne : cur ≠ u := by
        intro he
        subst he
        exact hnin (hv ▸ List.mem_cons_self cur rest)
      have hnrest : u ∉ rest := fun hin => hnin (hv ▸ List.mem_cons_of_mem _ hin)
      simp only [crawl_run, hstep, List.all_append]
      rcases hcase with ⟨hmem, rfl, rfl⟩ | ⟨hmem, hrefs, hw, rfl, rfl⟩ | ⟨hmem, hw, rfl, rfl⟩
      · simpa using ih { s with to_visit := rest } u hex hnrest
      · have hnen : u ∉ enqueueLinks (s.visited.insert cur)
            (extract_links_from_page uj nl dom hrefs cur) rest := by
          intro hin
          rcases enqueueLinks_mem _ _ _ _ hin with hh | hh
          · exact hnrest hh
          · rw [hh.1] at hex
            exact absurd hex (by simp)
        have ht := ih ⟨s.visited.insert cur,
          enqueueLinks (s.visited.insert cur)
            (extract_links_from_page uj nl dom hrefs cur) rest,
          setUpdate s.all_links (extract_links_from_page uj nl dom hrefs cur)⟩
          u hex hnen
        simp only [Bool.and_eq_true]
        exact ⟨by simp [Event.isFetchOf, hne], ht⟩
      · have ht := ih { s with to_visit := rest } u hex hnrest
        simp only [Bool.and_eq_true]
        exact ⟨by simp [Event.isFetchOf, hne], ht⟩

/-- **C6**: a URL rejected by `_should_visit_link` is never enqueued by
the extract-and-admit step (everything newly present in the frontier
passed the filter), and a run started from a state whose frontier avoids
such a URL never fetches it; yet an excluded URL can appear in the
returned link set, because extraction merges links into `all_links`
before the frontier-admission filter runs — witnessed by a concrete site
whose crawl returns a `.pdf` URL. -/
theorem crawl_excluded_urls (world : String → Option (List String))
    (uj : String → String → String) (nl : String → String) (dom : String)
    (delay fuel : Nat) :
    (∀ s s' evs, crawl_step world uj nl dom delay s = some (s', evs) →
      ∀ u, u ∈ s'.to_visit → u ∈ s.to_visit ∨ should_visit_link u = true) ∧
    (∀ s u, should_visit_link u = false → u ∉ s.to_visit →
      ((crawl_run world uj nl dom delay fuel s).2.all
        (fun e => !(e.isFetchOf u))) = true) ∧
    ("http://x.pdf" ∈ get_all_domain_links pdfWorld absResolve constHost "d" 1 "http://a" 3 ∧
      should_visit_link "http://x.pdf" = false) := by
  refine ⟨?_,
    fun s u hex hnin =>
      crawl_run_excluded_not_fetched world uj nl dom delay fuel s u hex hnin,
    by decide⟩
  intro s s' evs h u hu
  obtain ⟨cur, rest, hv, hcase⟩ := crawl_step_cases world uj nl dom delay s s' evs h
  rcases hcase with ⟨hmem, rfl, -⟩ | ⟨hmem, hrefs, hw, rfl, -⟩ | ⟨hmem, hw, rfl, -⟩
  · exact Or.inl (hv ▸ List.mem_cons_of_mem _ hu)
  · rcases enqueueLinks_mem _ _ _ _ hu with hh | hh
    · exact Or.inl (hv ▸ List.mem_cons_of_mem _ hh)
    · exact Or.inr hh.1
  · exact Or.inl (hv ▸ List.mem_cons_of_mem _ hu)

/-- **C6** (witness). -/
theorem crawl_excluded_urls_witness :
    should_visit_link "http://x.pdf" = false ∧
    ((crawl_run pdfWorld absResolve constHost "d" 1 3 (initState "http://a")).2.all
      (fun e => !(e.isFetchOf "http://x.pdf"))) = true :=
  ⟨by decide,
   (crawl_excluded_urls pdfWorld absResolve constHost "d" 1 3).2.1 (initState "http://a")
     "http://x.pdf" (by decide) (by decide)⟩

/-- **C7**: when a fetch attempt fails (`requests.RequestException`), the
step logs the failure event and abandons only that URL: `visited` and
`all_links` are unchanged, the frontier simply loses its head, and the
loop continues with the remaining frontier. -/
theorem crawl_failure_step (world : String → Option (List String))
    (uj : String → String → String) (nl : String → String) (dom : String)
    (delay : Nat) (s : CrawlState) (cur : String) (rest : List String)
    (hv : s.to_visit = cur :: rest) (hnv : cur ∉ s.visited)
    (hw : world cur = none) :
    crawl_step world uj nl dom delay s =
      some ({ s with to_visit := rest }, [Event.fetchFailure cur]) ∧
    ∀ fuel, crawl_run world uj nl dom delay (fuel + 1) s =
      ((crawl_run world uj nl dom delay fuel { s with to_visit := rest }).1,
        Event.fetchFailure cur ::
          (crawl_run world uj nl dom delay fuel { s with to_visit := rest }).2) := by
  have hstep : crawl_step world uj nl dom delay s =
      some ({ s with to_visit := rest }, [Event.fetchFailure cur]) := by
    unfold crawl_step
    rw [hv]
    simp [hnv, hw]
  refine ⟨hstep, fun fuel => ?_⟩
  simp [crawl_run, hstep]

/-- **C7** (witness). -/
theorem crawl_failure_step_witness :
    crawl_step failWorld absResolve constHost "d" 1 (initState "http://z") =
      some ({ initState "http://z" with to_visit := [] },
        [Event.fetchFailure "http://z"]) :=
  (crawl_failure_step failWorld absResolve constHost "d" 1 (initState "http://z")
    "http://z" [] rfl (by decide) (by decide)).1

/-- **C10**: `get_all_domain_links` always attempts to fetch the
operator-supplied base URL: the base URL forms the initial frontier and
the first step's first event is a fetch attempt of it, even when
`_should_visit_link` rejects the base URL. -/
theorem crawl_base_always_fetched (world : String → Option (List String))
    (uj : String → String → String) (nl : String → String) (dom : String)
    (delay : Nat) (base : String) (_hex : should_visit_link base = false) :
    ∃ s' evs, crawl_step world uj nl dom delay (initState base) = some (s', evs) ∧
      ∃ e t, evs = e :: t ∧ e.isFetchOf base = true := by
  rcases hstep : crawl_step world uj nl dom delay (initState base) with _ | ⟨s', evs⟩
  · exfalso
    rcases hw : world base with _ | hrefs <;>
      (unfold crawl_step at hstep; simp [initState, hw] at hstep)
  · obtain ⟨cur, rest, hv, hcase⟩ :=
      crawl_step_cases world uj nl dom delay _ s' evs hstep
    have hbase : base = cur ∧ rest = ([] : List String) := by
      have h2 : [base] = cur :: rest := hv
      simpa using h2
    obtain ⟨rfl, rfl⟩ := hbase
    rcases hcase with ⟨hmem, -, -⟩ | ⟨-, hrefs, hw, -, rfl⟩ | ⟨-, hw, -, rfl⟩
    · exact absurd hmem (by simp [initState])
    · exact ⟨s', _, rfl, _, _, rfl, by simp [Event.isFetchOf]⟩
    · exact ⟨s', _, rfl, _, _, rfl, by simp [Event.isFetchOf]⟩

/-- **C10** (witness). -/
theorem crawl_base_always_fetched_witness :
    should_visit_link "http://x.pdf" = false ∧
    ∃ s' evs, crawl_step pdfWorld absResolve constHost "d" 1
        (initState "http://x.pdf") = some (s', evs) ∧
      ∃ e t, evs = e :: t ∧ e.isFetchOf "http://x.pdf" = true :=
  ⟨by decide,
   crawl_base_always_fetched pdfWorld absResolve constHost "d" 1 "http://x.pdf"
     (by decide)⟩

/-- **C4** (counterexample): the configured delay is **not** observed
between every pair of successive fetch attempts: `time.sleep` sits inside
the `try` block, so a failed fetch performs no sleep. On a site whose base
page links to a failing page and a working one, the trace has a failed
fetch immediately followed by another fetch with no sleep in between. -/
theorem crawl_delay_counterexample :
    (crawl_run failWorld absResolve constHost "d" 1 5 (initState "http://a")).2 =
      [Event.fetchSuccess "http://a" ["http://c", "http://b"], Event.sleep 1,
       Event.fetchFailure "http://c", Event.fetchSuccess "http://b" [],
       Event.sleep 1] ∧
    delaySeparated
      (crawl_run failWorld absResolve constHost "d" 1 5 (initState "http://a")).2 =
      false := by
  exact ⟨by decide, by decide⟩

/-- **C4** (amended): the delay is observed after every **successful**
fetch — every `fetchSuccess` event is immediately followed by a
`sleep delay` event — while a failed attempt sleeps not at all, so a fetch
can immediately follow a failed fetch. -/
theorem crawl_sleep_after_success (world : String → Option (List String))
    (uj : String → String → String) (nl : String → String) (dom : String)
    (delay : Nat) :
    ∀ (fuel : Nat) (s : CrawlState),
      sleepAfterSuccess delay (crawl_run world uj nl dom delay fuel s).2 = true := by
  intro fuel
  induction fuel with
  | zero => intro s; simp [crawl_run, sleepAfterSuccess]
  | succ fuel ih =>
    intro s
    rcases hstep : crawl_step world uj nl dom delay s with _ | ⟨s', evs⟩
    · simp [crawl_run, hstep, sleepAfterSuccess]
    · obtain ⟨cur, rest, hv, hcase⟩ :=
        crawl_step_cases world uj nl dom delay s s' evs hstep
      simp only [crawl_run, hstep]
      rcases hcase with ⟨hmem, rfl, rfl⟩ | ⟨hmem, hrefs, hw, rfl, rfl⟩ | ⟨hmem, hw, rfl, rfl⟩
      · simpa using ih { s with to_visit := rest }
      · have ht := ih ⟨s.visited.insert cur,
          enqueueLinks (s.visited.insert cur)
            (extract_links_from_page uj nl dom hrefs cur) rest,
          setUpdate s.all_links (extract_links_from_page uj nl dom hrefs cur)⟩
        simp [sleepAfterSuccess, ht]
      · have ht := ih { s with to_visit := rest }
        simp [sleepAfterSuccess, ht]

end LinkExtractor
